import Mathlib

/-!
Shallow embedding of the paginated result-set component of `pluvo-python`
(`src/pluvo/pluvo.py`, class `PluvoResultSet`) together with its transport
collaborator, and proofs of the behavioural claims about it.

Modelling conventions:
* Items are modelled as integers (the component is item-agnostic).
* The transport collaborator (`Pluvo._request` answering a list endpoint)
  is modelled by `Server`: a fixed list of items; a fetch with a
  non-negative `offset` returns `{count, data}` with
  `data = items[offset : offset+limit]` and `count = len(items)`; a fetch
  with a negative `offset` fails at the transport level (a REST server
  rejects a negative offset).  Transport failures propagate unchanged, as
  the component catches nothing.
* The mutable object state (`self.pages`, `self._count`) is passed
  explicitly; every operation returns its result together with the updated
  state.  A ghost `trace` field records every transport call issued, so
  call-count properties can be stated.
* Python's floor division and modulo on ints with a positive divisor agree
  with Lean's `Int` `/` (`Int.ediv`) and `%` (`Int.emod`), which are used
  directly.
* Python dicts are modelled as association lists with first-match lookup;
  `dict(base, k=v, ...)` is modelled by consing the keyword pairs in front
  of `base`, which has the same lookup semantics.
-/

deriving instance DecidableEq for Except

namespace PluvoModel

/-- A query-parameter value (int, string, bool or None), as appears in the
`params` dicts passed to `PluvoResultSet`. -/
inductive PVal where
  | intV (n : Int)
  | strV (s : String)
  | boolV (b : Bool)
  | noneV
deriving DecidableEq, Repr

/-- A Python dict of query parameters, as an association list with
first-match lookup. -/
abbrev Params := List (String × PVal)

/-- First-match association-list lookup; models Python dict lookup. -/
def alookup {α β : Type} [DecidableEq α] (k : α) : List (α × β) → Option β
  | [] => none
  | p :: rest => if p.1 = k then some p.2 else alookup k rest

/-- The remote collection behind one list endpoint: the full ordered list
of items the server pages over. -/
structure Server where
  items : List Int
deriving DecidableEq, Repr

/-- Transport model of `Pluvo._request` against a list endpoint: returns
the response `{data, count}` for a non-negative offset, and fails at the
transport level for a negative offset. -/
def Server.fetch (srv : Server) (offset : Int) (limit : Nat) :
    Option (List Int × Nat) :=
  if offset < 0 then none
  else some ((srv.items.drop offset.toNat).take limit, srv.items.length)

/-- Errors observable from the result-set operations:
`outOfRange` is the explicit `IndexError("PluvoResultSet index out of
range")` raised in `__getitem__`; `transport` is any error propagated from
`Pluvo._request`; `itemMissing` is Python's own list-index error raised
when a fetched page is shorter than the in-page offset. -/
inductive Err where
  | outOfRange
  | transport
  | itemMissing
deriving DecidableEq, Repr

/-- One transport call as issued by `_get_page`: the HTTP verb, the
endpoint, the merged request parameters, and (ghost) the page index the
call was issued for. -/
structure Request where
  method : String
  endpoint : String
  params : Params
  pageIdx : Int
deriving DecidableEq, Repr

/-- State of one `PluvoResultSet`: constructor data (`params`, `method`,
`endpoint`), the owning client's `page_size`, the mutable fields `_count`
and `pages`, a ghost trace of all transport calls issued so far, and the
server it talks to. -/
structure ResultSet where
  params : Params
  method : String
  endpoint : String
  pageSize : Nat
  count : Option Nat
  pages : List (Int × List Int)
  trace : List Request
  server : Server
deriving DecidableEq, Repr

/-- `PluvoResultSet.__init__`: fresh state, no count, no cached pages, no
transport calls issued. -/
def initRS (params : Params) (endpoint method : String) (ps : Nat)
    (srv : Server) : ResultSet :=
  { params := params, method := method, endpoint := endpoint,
    pageSize := ps, count := none, pages := [], trace := [], server := srv }

/-- The page the server holds at index `k`: `items[k*ps : k*ps+ps]`. -/
def serverPage (items : List Int) (ps k : Nat) : List Int :=
  (items.drop (k * ps)).take ps

/-- The transport request `_get_page` builds for page `index`:
`dict(self.params, offset=index*page_size, limit=page_size)` sent with the
constructor's method to the constructor's endpoint.  The keyword
arguments override any `offset`/`limit` keys already in `self.params`. -/
def mkReq (rs : ResultSet) (index : Int) : Request :=
  ⟨rs.method, rs.endpoint,
   ("offset", .intV (index * rs.pageSize)) ::
     ("limit", .intV rs.pageSize) :: rs.params, index⟩

/-- `PluvoResultSet._get_page`: return the cached page if present;
otherwise issue one transport call, cache the returned data, and set
`_count` from the response if it is still unknown. -/
def getPage (rs : ResultSet) (index : Int) :
    Except Err (List Int) × ResultSet :=
  match alookup index rs.pages with
  | some d => (.ok d, rs)
  | none =>
    match rs.server.fetch (index * rs.pageSize) rs.pageSize with
    | none => (.error .transport, { rs with trace := rs.trace ++ [mkReq rs index] })
    | some (data, cnt) =>
      (.ok data,
       { rs with
         trace := rs.trace ++ [mkReq rs index],
         pages := rs.pages ++ [(index, data)],
         count := match rs.count with
                  | none => some cnt
                  | some c => some c })

/-- `PluvoResultSet.__len__`: return `_count`, first fetching page 0 to
learn it if it is still unknown.  (After a successful fetch `_count` is
necessarily set; `getD 0` only discharges the impossible `none` case.) -/
def lenRS (rs : ResultSet) : Except Err Nat × ResultSet :=
  match rs.count with
  | some c => (.ok c, rs)
  | none =>
    match getPage rs 0 with
    | (.error e, rs1) => (.error e, rs1)
    | (.ok _, rs1) => (.ok (rs1.count.getD 0), rs1)

/-- The `canonicalize` helper inside `__getitem__`: a negative key becomes
`len(self) + key` (which may trigger the length-discovery fetch). -/
def canonKey (rs : ResultSet) (key : Int) : Except Err Int × ResultSet :=
  if key < 0 then
    match lenRS rs with
    | (.error e, rs1) => (.error e, rs1)
    | (.ok n, rs1) => (.ok ((n : Int) + key), rs1)
  else (.ok key, rs)

/-- The integer-key branch of `PluvoResultSet.__getitem__`: bounds-check
the raw key against `len(self)`, canonicalize it, split it into page key
and in-page offset with `divmod(·, page_size)`, fetch the page, and index
into it. -/
def getIndex (rs : ResultSet) (key : Int) : Except Err Int × ResultSet :=
  match lenRS rs with
  | (.error e, rs1) => (.error e, rs1)
  | (.ok n, rs1) =>
    if (n : Int) ≤ key then (.error .outOfRange, rs1)
    else
      match canonKey rs1 key with
      | (.error e, rs2) => (.error e, rs2)
      | (.ok ck, rs2) =>
        match getPage rs2 (ck / rs2.pageSize) with
        | (.error e, rs3) => (.error e, rs3)
        | (.ok d, rs3) =>
          match d[(ck % (rs2.pageSize : Int)).toNat]? with
          | some x => (.ok x, rs3)
          | none => (.error .itemMissing, rs3)

/-- Fetch the pages with the given indices in order, concatenating their
data; models the `for k in range(start_key + 1, stop_key)` accumulation
loop of the slice branch (and the page walk of `__iter__`). -/
def getPages : ResultSet → List Int → Except Err (List Int) × ResultSet
  | rs, [] => (.ok [], rs)
  | rs, k :: ks =>
    match getPage rs k with
    | (.error e, rs1) => (.error e, rs1)
    | (.ok d, rs1) =>
      match getPages rs1 ks with
      | (.error e, rs2) => (.error e, rs2)
      | (.ok ds, rs2) => (.ok (d ++ ds), rs2)

/-- The integer interval `[a, b)` as a list, for the Python
`range(a, b)` over possibly negative page keys. -/
def intRange (a b : Int) : List Int :=
  (List.range (b - a).toNat).map fun j : Nat => a + (j : Int)

/-- The body of the slice branch of `__getitem__` after canonicalization:
return `[]` if `start > stop`; if both bounds fall on one page, slice that
page; otherwise take the start page's tail, every full page strictly in
between, and (when `stop_offset > 0`) the stop page's head.  All four
divmod values are computed up front, as in the source. -/
def sliceCore (rs : ResultSet) (b e : Int) :
    Except Err (List Int) × ResultSet :=
  if e < b then (.ok [], rs)
  else if b / rs.pageSize = e / rs.pageSize then
    match getPage rs (b / rs.pageSize) with
    | (.error er, rs3) => (.error er, rs3)
    | (.ok d, rs3) =>
      (.ok ((d.take (e % (rs.pageSize : Int)).toNat).drop
              (b % (rs.pageSize : Int)).toNat), rs3)
  else
    match getPage rs (b / rs.pageSize) with
    | (.error er, rs3) => (.error er, rs3)
    | (.ok d, rs3) =>
      match getPages rs3 (intRange (b / rs.pageSize + 1) (e / rs.pageSize)) with
      | (.error er, rs4) => (.error er, rs4)
      | (.ok mids, rs4) =>
        if 0 < (e % (rs.pageSize : Int)).toNat then
          match getPage rs4 (e / rs.pageSize) with
          | (.error er, rs5) => (.error er, rs5)
          | (.ok dl, rs5) =>
            (.ok (d.drop (b % (rs.pageSize : Int)).toNat ++ mids ++
                    dl.take (e % (rs.pageSize : Int)).toNat), rs5)
        else (.ok (d.drop (b % (rs.pageSize : Int)).toNat ++ mids), rs4)

/-- The slice branch of `PluvoResultSet.__getitem__` with explicit bounds:
canonicalize both bounds, then run the slice body.  Python's `l[a:b]` on
in-page offsets is `(l.take b).drop a`. -/
def getSlice (rs : ResultSet) (start0 stop0 : Int) :
    Except Err (List Int) × ResultSet :=
  match canonKey rs start0 with
  | (.error e, rs1) => (.error e, rs1)
  | (.ok b, rs1) =>
    match canonKey rs1 stop0 with
    | (.error e, rs2) => (.error e, rs2)
    | (.ok e0, rs2) => sliceCore rs2 b e0

/-- `PluvoResultSet.__iter__`: compute `num_pages = ceil(len(self) /
page_size)` and build the chained iterator.  `itertools.chain(*page_iters)`
unpacks the generator of page iterators eagerly, so every page in
`range(num_pages)` is fetched at iterator-construction time; the returned
list is the sequence of items the resulting iterator will yield. -/
def iterInit (rs : ResultSet) : Except Err (List Int) × ResultSet :=
  match lenRS rs with
  | (.error e, rs1) => (.error e, rs1)
  | (.ok n, rs1) =>
    getPages rs1
      ((List.range ((n + rs1.pageSize - 1) / rs1.pageSize)).map
        fun j : Nat => (j : Int))

/-- One observable operation on a result set, for stating properties over
arbitrary operation sequences. -/
inductive Op where
  | lenO
  | indexO (i : Int)
  | sliceO (a b : Int)
  | iterO
  | pageO (k : Int)
deriving DecidableEq, Repr

/-- Run one operation, keeping only the state. -/
def runOp (rs : ResultSet) : Op → ResultSet
  | .lenO => (lenRS rs).2
  | .indexO i => (getIndex rs i).2
  | .sliceO a b => (getSlice rs a b).2
  | .iterO => (iterInit rs).2
  | .pageO k => (getPage rs k).2

/-- Run a sequence of operations. -/
def runOps (rs : ResultSet) (ops : List Op) : ResultSet :=
  ops.foldl runOp rs

/-! ### Invariants and stability -/

/-- Well-formed state: positive page size, `_count` (when set) equal to
the server total, every cached page equal to the server's page at a
non-negative index, and no cached page while `_count` is unknown (every
fetch that fills the cache also sets `_count`). -/
structure Wf (rs : ResultSet) : Prop where
  psPos : 0 < rs.pageSize
  countEq : ∀ c, rs.count = some c → c = rs.server.items.length
  pagesEq : ∀ k d, (k, d) ∈ rs.pages →
    0 ≤ k ∧ d = serverPage rs.server.items rs.pageSize k.toNat
  countNone : rs.count = none → rs.pages = []

/-- A recorded request carries `offset = page_index * page_size` and
`limit = page_size` in its merged parameters. -/
def GoodReq (ps : Nat) (req : Request) : Prop :=
  alookup "offset" req.params = some (.intV (req.pageIdx * ps)) ∧
  alookup "limit" req.params = some (.intV ps)

/-- How any result-set operation relates the state before to the state
after: the constructor data and the server never change, `_count` is never
unset or altered once set, the trace only grows and every appended request
is well-formed, and well-formedness is preserved. -/
structure Stable (rs rs' : ResultSet) : Prop where
  pageSizeEq : rs'.pageSize = rs.pageSize
  paramsEq : rs'.params = rs.params
  methodEq : rs'.method = rs.method
  endpointEq : rs'.endpoint = rs.endpoint
  serverEq : rs'.server = rs.server
  countMono : ∀ c, rs.count = some c → rs'.count = some c
  traceExt : ∃ t, rs'.trace = rs.trace ++ t ∧ ∀ req ∈ t, GoodReq rs.pageSize req
  wf : Wf rs → Wf rs'

theorem stable_self (rs : ResultSet) : Stable rs rs :=
  ⟨rfl, rfl, rfl, rfl, rfl, fun _ h => h,
   ⟨[], by simp, by simp⟩, id⟩

theorem Stable.trans {a b c : ResultSet}
    (h1 : Stable a b) (h2 : Stable b c) : Stable a c := by
  obtain ⟨t1, ht1, hg1⟩ := h1.traceExt
  obtain ⟨t2, ht2, hg2⟩ := h2.traceExt
  refine ⟨h2.pageSizeEq.trans h1.pageSizeEq,
    h2.paramsEq.trans h1.paramsEq,
    h2.methodEq.trans h1.methodEq,
    h2.endpointEq.trans h1.endpointEq,
    h2.serverEq.trans h1.serverEq,
    fun c hc => h2.countMono c (h1.countMono c hc),
    ⟨t1 ++ t2, by rw [ht2, ht1, List.append_assoc], ?_⟩,
    fun hw => h2.wf (h1.wf hw)⟩
  intro req hr
  rcases List.mem_append.mp hr with h | h
  · exact hg1 req h
  · have := hg2 req h
    rwa [h1.pageSizeEq] at this

/-! ### Arithmetic bridges between `Int` and `Nat` -/

theorem toNat_mul_nat (a : Int) (n : Nat) (h : 0 ≤ a) :
    (a * (n : Int)).toNat = a.toNat * n := by
  obtain ⟨m, rfl⟩ := Int.eq_ofNat_of_zero_le h
  rw [← Int.natCast_mul, Int.toNat_natCast, Int.toNat_natCast]

theorem toNat_div_nat (a : Int) (ps : Nat) (h : 0 ≤ a) :
    (a / (ps : Int)).toNat = a.toNat / ps := by
  obtain ⟨m, rfl⟩ := Int.eq_ofNat_of_zero_le h
  rw [← Int.natCast_div, Int.toNat_natCast, Int.toNat_natCast]

theorem toNat_mod_nat (a : Int) (ps : Nat) (h : 0 ≤ a) :
    (a % (ps : Int)).toNat = a.toNat % ps := by
  obtain ⟨m, rfl⟩ := Int.eq_ofNat_of_zero_le h
  rw [← Int.natCast_mod, Int.toNat_natCast, Int.toNat_natCast]

/-! ### Lookup lemmas -/

theorem alookup_mem {α β : Type} [DecidableEq α] {k : α} {v : β} :
    ∀ {l : List (α × β)}, alookup k l = some v → (k, v) ∈ l := by
  intro l
  induction l with
  | nil => intro h; exact absurd h (by simp [alookup])
  | cons p rest ih =>
    intro h
    rw [alookup] at h
    split at h
    · next heq =>
      obtain ⟨a, b⟩ := p
      simp only at heq
      subst heq
      simp only [Option.some.injEq] at h
      subst h
      exact List.mem_cons_self _ _
    · exact List.mem_cons_of_mem _ (ih h)

theorem goodReq_mkReq (rs : ResultSet) (k : Int) :
    GoodReq rs.pageSize (mkReq rs k) := by
  constructor
  · simp [mkReq, alookup]
  · rw [mkReq, alookup]
    rw [if_neg (by simp), alookup, if_pos rfl]

/-! ### `_get_page` -/

theorem fetch_offset_nonneg {srv : Server} {off : Int} {ps : Nat} {pr}
    (h : srv.fetch off ps = some pr) : 0 ≤ off := by
  rw [Server.fetch] at h
  split at h
  · exact absurd h (by simp)
  · next hneg => omega

theorem fetch_ok {srv : Server} {off : Int} {ps : Nat} {data cnt}
    (h : srv.fetch off ps = some (data, cnt)) :
    data = (srv.items.drop off.toNat).take ps ∧ cnt = srv.items.length := by
  rw [Server.fetch] at h
  split at h
  · exact absurd h (by simp)
  · simp only [Option.some.injEq, Prod.mk.injEq] at h
    exact ⟨h.1.symm, h.2.symm⟩

theorem getPage_cached {rs : ResultSet} {k : Int} {d : List Int}
    (h : alookup k rs.pages = some d) : getPage rs k = (.ok d, rs) := by
  rw [getPage, h]

theorem getPage_stable (rs : ResultSet) (k : Int) :
    Stable rs (getPage rs k).2 := by
  rw [getPage]
  split
  · exact stable_self rs
  next hcache =>
    split
    next hf =>
      refine ⟨rfl, rfl, rfl, rfl, rfl, fun c hc => hc,
        ⟨[mkReq rs k], rfl, ?_⟩, ?_⟩
      · intro req hr
        rw [List.mem_singleton] at hr
        subst hr
        exact goodReq_mkReq rs k
      · intro hw
        exact ⟨hw.psPos, hw.countEq, hw.pagesEq, hw.countNone⟩
    next data cnt hf =>
      refine ⟨rfl, rfl, rfl, rfl, rfl, ?_, ⟨[mkReq rs k], rfl, ?_⟩, ?_⟩
      · intro c hc
        simp only [hc]
      · intro req hr
        rw [List.mem_singleton] at hr
        subst hr
        exact goodReq_mkReq rs k
      · intro hw
        have hoff : 0 ≤ k * (rs.pageSize : Int) := fetch_offset_nonneg hf
        have hk : 0 ≤ k := by
          rcases le_or_lt 0 k with h | h
          · exact h
          · exfalso
            have hps : (0 : Int) < rs.pageSize := by exact_mod_cast hw.psPos
            nlinarith
        obtain ⟨hdata, hcnt⟩ := fetch_ok hf
        refine ⟨hw.psPos, ?_, ?_, ?_⟩
        · intro c hc
          simp only at hc
          cases hrc : rs.count with
          | none =>
            rw [hrc] at hc
            simp only [Option.some.injEq] at hc
            subst hc
            exact hcnt
          | some c0 =>
            rw [hrc] at hc
            simp only [Option.some.injEq] at hc
            subst hc
            exact hw.countEq c0 hrc
        · intro k' d' hmem
          simp only [List.mem_append, List.mem_singleton] at hmem
          rcases hmem with hmem | hmem
          · exact hw.pagesEq k' d' hmem
          · rw [Prod.ext_iff] at hmem
            obtain ⟨hk', hd'⟩ := hmem
            simp only at hk' hd'
            subst hk'
            subst hd'
            refine ⟨hk, ?_⟩
            rw [hdata, serverPage, toNat_mul_nat k' rs.pageSize hk]
        · intro hc
          simp only at hc
          cases hrc : rs.count with
          | none => rw [hrc] at hc; exact absurd hc (by simp)
          | some c0 => rw [hrc] at hc; exact absurd hc (by simp)

/-- A successful uncached fetch: the returned page is the server page, the
cache gains exactly that entry, `_count` is set to the server total, and
the trace grows by the page's request. -/
theorem getPage_fetch_ok {rs : ResultSet} {k : Int}
    (hwf : Wf rs) (hk : 0 ≤ k) (hcache : alookup k rs.pages = none) :
    getPage rs k =
      (.ok (serverPage rs.server.items rs.pageSize k.toNat),
       { rs with
         trace := rs.trace ++ [mkReq rs k],
         pages := rs.pages ++ [(k, serverPage rs.server.items rs.pageSize k.toNat)],
         count := some rs.server.items.length }) := by
  have hoff : ¬ (k * (rs.pageSize : Int) < 0) := by
    push_neg
    positivity
  rw [getPage, hcache, Server.fetch, if_neg hoff]
  have hpage : (rs.server.items.drop (k * (rs.pageSize : Int)).toNat).take rs.pageSize
      = serverPage rs.server.items rs.pageSize k.toNat := by
    rw [serverPage, toNat_mul_nat k rs.pageSize hk]
  simp only [hpage]
  cases hrc : rs.count with
  | none => rfl
  | some c0 =>
    have : c0 = rs.server.items.length := hwf.countEq c0 hrc
    subst this
    rfl

/-- A `getPage` at a non-negative index on a well-formed state always
returns the server page. -/
theorem getPage_ok {rs : ResultSet} {k : Int}
    (hwf : Wf rs) (hk : 0 ≤ k) :
    (getPage rs k).1 = .ok (serverPage rs.server.items rs.pageSize k.toNat) := by
  cases hcache : alookup k rs.pages with
  | some d =>
    rw [getPage_cached hcache]
    have := (hwf.pagesEq k d (alookup_mem hcache)).2
    rw [this]
  | none =>
    rw [getPage_fetch_ok hwf hk hcache]

/-- After a `getPage` at a non-negative index on a well-formed state,
`_count` is the server total. -/
theorem getPage_count {rs : ResultSet} {k : Int}
    (hwf : Wf rs) (hk : 0 ≤ k) :
    (getPage rs k).2.count = some rs.server.items.length := by
  cases hcache : alookup k rs.pages with
  | some d =>
    rw [getPage_cached hcache]
    cases hrc : rs.count with
    | some c0 => exact congrArg some (hwf.countEq c0 hrc)
    | none =>
      have := hwf.countNone hrc
      rw [this] at hcache
      exact absurd hcache (by simp [alookup])
  | none =>
    rw [getPage_fetch_ok hwf hk hcache]

/-! ### Stability of every operation -/

theorem lenRS_stable (rs : ResultSet) : Stable rs (lenRS rs).2 := by
  rw [lenRS]
  split
  · exact stable_self rs
  · split
    next e rs1 heq =>
      have h := getPage_stable rs 0
      rw [heq] at h
      exact h
    next v rs1 heq =>
      have h := getPage_stable rs 0
      rw [heq] at h
      exact h

theorem canonKey_stable (rs : ResultSet) (key : Int) :
    Stable rs (canonKey rs key).2 := by
  rw [canonKey]
  split
  · split
    next e rs1 heq =>
      have h := lenRS_stable rs
      rw [heq] at h
      exact h
    next n rs1 heq =>
      have h := lenRS_stable rs
      rw [heq] at h
      exact h
  · exact stable_self rs

theorem getPages_stable : ∀ (rs : ResultSet) (ks : List Int),
    Stable rs (getPages rs ks).2 := by
  intro rs ks
  induction ks generalizing rs with
  | nil => exact stable_self rs
  | cons k ks ih =>
    rw [getPages]
    split
    next e rs1 heq =>
      have h := getPage_stable rs k
      rw [heq] at h
      exact h
    next d rs1 heq =>
      have h1 := getPage_stable rs k
      rw [heq] at h1
      split
      next e rs2 heq2 =>
        have h2 := ih rs1
        rw [heq2] at h2
        exact h1.trans h2
      next ds rs2 heq2 =>
        have h2 := ih rs1
        rw [heq2] at h2
        exact h1.trans h2

theorem sliceCore_stable (rs : ResultSet) (b e : Int) :
    Stable rs (sliceCore rs b e).2 := by
  rw [sliceCore]
  split
  · exact stable_self rs
  · split
    · split
      next er rs3 heq =>
        have h := getPage_stable rs (b / rs.pageSize)
        rw [heq] at h
        exact h
      next d rs3 heq =>
        have h := getPage_stable rs (b / rs.pageSize)
        rw [heq] at h
        exact h
    · split
      next er rs3 heq =>
        have h := getPage_stable rs (b / rs.pageSize)
        rw [heq] at h
        exact h
      next d rs3 heq =>
        have h1 := getPage_stable rs (b / rs.pageSize)
        rw [heq] at h1
        split
        next er rs4 heq2 =>
          have h2 := getPages_stable rs3 (intRange (b / rs.pageSize + 1) (e / rs.pageSize))
          rw [heq2] at h2
          exact h1.trans h2
        next mids rs4 heq2 =>
          have h2 := getPages_stable rs3 (intRange (b / rs.pageSize + 1) (e / rs.pageSize))
          rw [heq2] at h2
          split
          · split
            next er rs5 heq3 =>
              have h3 := getPage_stable rs4 (e / rs.pageSize)
              rw [heq3] at h3
              exact (h1.trans h2).trans h3
            next dl rs5 heq3 =>
              have h3 := getPage_stable rs4 (e / rs.pageSize)
              rw [heq3] at h3
              exact (h1.trans h2).trans h3
          · exact h1.trans h2

theorem getSlice_stable (rs : ResultSet) (start0 stop0 : Int) :
    Stable rs (getSlice rs start0 stop0).2 := by
  rw [getSlice]
  split
  next e rs1 heq =>
    have h := canonKey_stable rs start0
    rw [heq] at h
    exact h
  next b rs1 heq =>
    have h1 := canonKey_stable rs start0
    rw [heq] at h1
    split
    next e rs2 heq2 =>
      have h2 := canonKey_stable rs1 stop0
      rw [heq2] at h2
      exact h1.trans h2
    next e0 rs2 heq2 =>
      have h2 := canonKey_stable rs1 stop0
      rw [heq2] at h2
      exact (h1.trans h2).trans (sliceCore_stable rs2 b e0)

theorem getIndex_stable (rs : ResultSet) (key : Int) :
    Stable rs (getIndex rs key).2 := by
  rw [getIndex]
  split
  next e rs1 heq =>
    have h := lenRS_stable rs
    rw [heq] at h
    exact h
  next n rs1 heq =>
    have h1 := lenRS_stable rs
    rw [heq] at h1
    split
    · exact h1
    · split
      next e rs2 heq2 =>
        have h2 := canonKey_stable rs1 key
        rw [heq2] at h2
        exact h1.trans h2
      next ck rs2 heq2 =>
        have h2 := canonKey_stable rs1 key
        rw [heq2] at h2
        split
        next e rs3 heq3 =>
          have h3 := getPage_stable rs2 (ck / rs2.pageSize)
          rw [heq3] at h3
          exact (h1.trans h2).trans h3
        next d rs3 heq3 =>
          have h3 := getPage_stable rs2 (ck / rs2.pageSize)
          rw [heq3] at h3
          split
          · exact (h1.trans h2).trans h3
          · exact (h1.trans h2).trans h3

theorem iterInit_stable (rs : ResultSet) : Stable rs (iterInit rs).2 := by
  rw [iterInit]
  split
  next e rs1 heq =>
    have h := lenRS_stable rs
    rw [heq] at h
    exact h
  next n rs1 heq =>
    have h1 := lenRS_stable rs
    rw [heq] at h1
    exact h1.trans (getPages_stable rs1 _)

theorem runOp_stable (rs : ResultSet) (op : Op) : Stable rs (runOp rs op) := by
  cases op with
  | lenO => exact lenRS_stable rs
  | indexO i => exact getIndex_stable rs i
  | sliceO a b => exact getSlice_stable rs a b
  | iterO => exact iterInit_stable rs
  | pageO k => exact getPage_stable rs k

theorem runOps_stable : ∀ (rs : ResultSet) (ops : List Op),
    Stable rs (runOps rs ops) := by
  intro rs ops
  induction ops generalizing rs with
  | nil => exact stable_self rs
  | cons op ops ih =>
    rw [runOps, List.foldl_cons]
    exact (runOp_stable rs op).trans (ih (runOp rs op))

/-! ### Value-level specifications -/

theorem lenRS_ok {rs : ResultSet} (hwf : Wf rs) :
    (lenRS rs).1 = .ok rs.server.items.length := by
  rw [lenRS]
  cases hrc : rs.count with
  | some c =>
    simp only
    exact congrArg Except.ok (hwf.countEq c hrc)
  | none =>
    have hcache : alookup (0 : Int) rs.pages = none := by
      rw [hwf.countNone hrc]
      rfl
    rw [getPage_fetch_ok hwf le_rfl hcache]
    rfl

theorem lenRS_count {rs : ResultSet} (hwf : Wf rs) :
    (lenRS rs).2.count = some rs.server.items.length := by
  rw [lenRS]
  cases hrc : rs.count with
  | some c =>
    simp only
    rw [hrc]
    exact congrArg some (hwf.countEq c hrc)
  | none =>
    have hcache : alookup (0 : Int) rs.pages = none := by
      rw [hwf.countNone hrc]
      rfl
    rw [getPage_fetch_ok hwf le_rfl hcache]

theorem lenRS_cached {rs : ResultSet} {c : Nat} (h : rs.count = some c) :
    lenRS rs = (.ok c, rs) := by
  rw [lenRS, h]

theorem canonKey_nonneg {rs : ResultSet} {key : Int} (h : 0 ≤ key) :
    canonKey rs key = (.ok key, rs) := by
  rw [canonKey, if_neg (not_lt.mpr h)]

theorem getPages_ok : ∀ (rs : ResultSet) (ks : List Int), Wf rs →
    (∀ k ∈ ks, 0 ≤ k) →
    (getPages rs ks).1 =
      .ok ((ks.map fun k =>
        serverPage rs.server.items rs.pageSize k.toNat).flatten) := by
  intro rs ks
  induction ks generalizing rs with
  | nil => intro _ _; rfl
  | cons k ks ih =>
    intro hwf hks
    have hk : 0 ≤ k := hks k (List.mem_cons_self _ _)
    rw [getPages]
    cases hgp : getPage rs k with
    | mk r rs1 =>
      have hr : r = .ok (serverPage rs.server.items rs.pageSize k.toNat) := by
        rw [← getPage_ok hwf hk, hgp]
      subst hr
      simp only
      have hst : Stable rs rs1 := by
        have h := getPage_stable rs k
        rw [hgp] at h
        exact h
      have hwf1 : Wf rs1 := hst.wf hwf
      cases hgps : getPages rs1 ks with
      | mk r2 rs2 =>
        have hr2 : r2 = .ok ((ks.map fun k =>
            serverPage rs.server.items rs.pageSize k.toNat).flatten) := by
          have := ih rs1 hwf1 (fun x hx => hks x (List.mem_cons_of_mem _ hx))
          rw [hgps] at this
          rw [hst.serverEq, hst.pageSizeEq] at this
          exact this
        subst hr2
        rfl

/-! ### Pure page arithmetic -/

theorem samePage_slice (items : List Int) (ps a b : Nat) (hps : 0 < ps)
    (hk : a / ps = b / ps) :
    ((serverPage items ps (a / ps)).take (b % ps)).drop (a % ps)
      = (items.take b).drop a := by
  have ha := Nat.div_add_mod a ps
  have hb := Nat.div_add_mod b ps
  have hbm := Nat.mod_lt b hps
  rw [serverPage, List.take_take]
  have hmin : min (b % ps) ps = b % ps := by omega
  rw [hmin, List.drop_take, List.drop_drop, List.drop_take]
  have h1 : a / ps * ps + a % ps = a := by
    rw [Nat.mul_comm]
    omega
  have h2 : b % ps - a % ps = b - a := by
    rw [hk] at ha
    omega
  rw [h1, h2]

theorem mid_pages_concat (items : List Int) (ps eo : Nat) (hps : 0 < ps)
    (heo : eo ≤ ps) :
    ∀ (m k tk : Nat), k + m = tk →
      ((((List.range m).map fun j => k + j).map fun i =>
          serverPage items ps i).flatten)
          ++ (serverPage items ps tk).take eo
        = (items.take (tk * ps + eo)).drop (k * ps) := by
  intro m
  induction m with
  | zero =>
    intro k tk hk
    have hktk : k = tk := by omega
    subst hktk
    simp only [List.range_zero, List.map_nil, List.flatten_nil, List.nil_append]
    rw [serverPage, List.take_take]
    have hmin : min eo ps = eo := by omega
    rw [hmin, List.drop_take]
    congr 1
    omega
  | succ m ih =>
    intro k tk hk
    rw [List.range_succ_eq_map, List.map_cons, List.map_cons, List.flatten_cons]
    rw [show List.map (fun j => k + j) (List.map Nat.succ (List.range m))
          = List.map (fun j => (k + 1) + j) (List.range m) by
        rw [List.map_map]
        apply List.map_congr_left
        intro j _
        simp only [Function.comp_apply]
        omega]
    rw [Nat.add_zero]
    rw [List.append_assoc, ih (k + 1) tk (by omega)]
    have hsucc : (k + 1) * ps = k * ps + ps := by
      rw [Nat.add_mul, Nat.one_mul]
    have hle : k * ps + ps ≤ tk * ps + eo := by
      have h1 : (k + 1) * ps ≤ tk * ps :=
        Nat.mul_le_mul_right ps (by omega)
      omega
    conv_rhs => rw [← List.take_append_drop ps ((items.take (tk * ps + eo)).drop (k * ps))]
    congr 1
    · rw [List.drop_take, List.take_take, serverPage]
      have hmin : min ps (tk * ps + eo - k * ps) = ps := by omega
      rw [hmin]
    · rw [List.drop_drop, hsucc]

theorem front_page_concat (items : List Int) (ps a b : Nat) (hps : 0 < ps)
    (hb : a / ps * ps + ps ≤ b) :
    (serverPage items ps (a / ps)).drop (a % ps)
        ++ (items.take b).drop (a / ps * ps + ps)
      = (items.take b).drop a := by
  have ha := Nat.div_add_mod a ps
  have ham := Nat.mod_lt a hps
  have ha2 : a / ps * ps + a % ps = a := by
    rw [Nat.mul_comm]
    omega
  conv_rhs => rw [← List.take_append_drop (ps - a % ps) ((items.take b).drop a)]
  congr 1
  · rw [serverPage, List.drop_take, List.drop_drop, ha2, List.drop_take,
      List.take_take]
    have hmin : min (ps - a % ps) (b - a) = ps - a % ps := by omega
    rw [hmin]
  · rw [List.drop_drop]
    congr 1
    omega

theorem ceil_mul_ge (n ps : Nat) (hps : 0 < ps) :
    n ≤ ((n + ps - 1) / ps) * ps := by
  rw [Nat.mul_comm]
  have h2 := Nat.div_add_mod (n + ps - 1) ps
  have h3 := Nat.mod_lt (n + ps - 1) hps
  omega

theorem flatten_pages (ps : Nat) (hps : 0 < ps) :
    ∀ (np : Nat) (items : List Int), items.length ≤ np * ps →
      (((List.range np).map fun j => serverPage items ps j)).flatten = items := by
  intro np
  induction np with
  | zero =>
    intro items h
    simp only [Nat.zero_mul, Nat.le_zero, List.length_eq_zero] at h
    subst h
    rfl
  | succ np ih =>
    intro items h
    rw [List.range_succ_eq_map, List.map_cons, List.flatten_cons, List.map_map]
    have hpage0 : serverPage items ps 0 = items.take ps := by
      rw [serverPage, Nat.zero_mul, List.drop_zero]
    have hcomp : ((fun j => serverPage items ps j) ∘ Nat.succ)
        = fun j => serverPage (items.drop ps) ps j := by
      funext j
      simp only [Function.comp_apply]
      rw [serverPage, serverPage, List.drop_drop]
      congr 2
      have hsm : Nat.succ j * ps = j * ps + ps := by
        rw [Nat.succ_eq_add_one, Nat.add_mul, Nat.one_mul]
      omega
    rw [hpage0, hcomp]
    rw [ih (items.drop ps) (by
      rw [List.length_drop]
      have hsm : (np + 1) * ps = np * ps + ps := by
        rw [Nat.add_mul, Nat.one_mul]
      omega)]
    exact List.take_append_drop ps items

theorem intRange_natCast (K L : Nat) :
    intRange (K : Int) (L : Int)
      = (List.range (L - K)).map fun j => ((K + j : Nat) : Int) := by
  rw [intRange]
  have h : ((L : Int) - K).toNat = L - K := by omega
  rw [h]
  apply List.map_congr_left
  intro j _
  push_cast
  ring

/-- The slice body on a well-formed state with canonical bounds
`0 ≤ b ≤ e` returns exactly `items[b:e]` in Python's clamped sense,
whatever `e` is (even far beyond the end of the collection). -/
theorem sliceCore_ok {rs : ResultSet} {b e : Int} (hwf : Wf rs)
    (hb : 0 ≤ b) (hbe : b ≤ e) :
    (sliceCore rs b e).1
      = .ok ((rs.server.items.take e.toNat).drop b.toNat) := by
  have hps := hwf.psPos
  have hpsInt : (0 : Int) < (rs.pageSize : Int) := by exact_mod_cast hps
  have he : 0 ≤ e := le_trans hb hbe
  have hBdiv : (b / (rs.pageSize : Int)).toNat = b.toNat / rs.pageSize :=
    toNat_div_nat b rs.pageSize hb
  have hBmod : (b % (rs.pageSize : Int)).toNat = b.toNat % rs.pageSize :=
    toNat_mod_nat b rs.pageSize hb
  have hEdiv : (e / (rs.pageSize : Int)).toNat = e.toNat / rs.pageSize :=
    toNat_div_nat e rs.pageSize he
  have hEmod : (e % (rs.pageSize : Int)).toNat = e.toNat % rs.pageSize :=
    toNat_mod_nat e rs.pageSize he
  have hBk : 0 ≤ b / (rs.pageSize : Int) := Int.ediv_nonneg hb (le_of_lt hpsInt)
  have hEk : 0 ≤ e / (rs.pageSize : Int) := Int.ediv_nonneg he (le_of_lt hpsInt)
  have hcastB : b / (rs.pageSize : Int) = ((b.toNat / rs.pageSize : Nat) : Int) := by
    rw [← hBdiv, Int.toNat_of_nonneg hBk]
  have hcastE : e / (rs.pageSize : Int) = ((e.toNat / rs.pageSize : Nat) : Int) := by
    rw [← hEdiv, Int.toNat_of_nonneg hEk]
  rw [sliceCore, if_neg (not_lt.mpr hbe)]
  by_cases hsame : b / (rs.pageSize : Int) = e / (rs.pageSize : Int)
  · rw [if_pos hsame]
    cases hgp : getPage rs (b / (rs.pageSize : Int)) with
    | mk r rs3 =>
      have hr : r = .ok (serverPage rs.server.items rs.pageSize
          (b / (rs.pageSize : Int)).toNat) := by
        rw [← getPage_ok hwf hBk, hgp]
      subst hr
      simp only
      congr 1
      rw [hBdiv, hBmod, hEmod]
      have hsameN : b.toNat / rs.pageSize = e.toNat / rs.pageSize := by
        rw [hcastB, hcastE] at hsame
        exact_mod_cast hsame
      exact samePage_slice rs.server.items rs.pageSize b.toNat e.toNat hps hsameN
  · rw [if_neg hsame]
    have hsameN : b.toNat / rs.pageSize ≠ e.toNat / rs.pageSize := by
      intro hcon
      apply hsame
      rw [hcastB, hcastE]
      exact_mod_cast hcon
    have hdivle : b.toNat / rs.pageSize ≤ e.toNat / rs.pageSize :=
      Nat.div_le_div_right (by omega)
    have hdivlt : b.toNat / rs.pageSize < e.toNat / rs.pageSize := by omega
    cases hgp : getPage rs (b / (rs.pageSize : Int)) with
    | mk r rs3 =>
      have hr : r = .ok (serverPage rs.server.items rs.pageSize
          (b / (rs.pageSize : Int)).toNat) := by
        rw [← getPage_ok hwf hBk, hgp]
      subst hr
      have hst3 : Stable rs rs3 := by
        have h := getPage_stable rs (b / (rs.pageSize : Int))
        rw [hgp] at h
        exact h
      have hwf3 : Wf rs3 := hst3.wf hwf
      simp only
      cases hgps : getPages rs3
          (intRange (b / (rs.pageSize : Int) + 1) (e / (rs.pageSize : Int))) with
      | mk r2 rs4 =>
        have hkeys : ∀ k ∈ intRange (b / (rs.pageSize : Int) + 1)
            (e / (rs.pageSize : Int)), 0 ≤ k := by
          intro k hkmem
          rw [intRange, List.mem_map] at hkmem
          obtain ⟨j, _, rfl⟩ := hkmem
          have : (0 : Int) ≤ (j : Int) := Int.natCast_nonneg j
          omega
        have hmids : r2 = .ok ((((List.range
            (e.toNat / rs.pageSize - (b.toNat / rs.pageSize + 1))).map
              fun j => (b.toNat / rs.pageSize + 1) + j).map fun i =>
                serverPage rs.server.items rs.pageSize i).flatten) := by
          have h := getPages_ok rs3 _ hwf3 hkeys
          rw [hgps] at h
          rw [hst3.serverEq, hst3.pageSizeEq] at h
          refine Eq.trans h ?_
          congr 1
          congr 1
          have hrange : intRange (b / (rs.pageSize : Int) + 1)
              (e / (rs.pageSize : Int))
              = (List.range (e.toNat / rs.pageSize -
                  (b.toNat / rs.pageSize + 1))).map
                  fun j => (((b.toNat / rs.pageSize + 1) + j : Nat) : Int) := by
            rw [hcastB, hcastE]
            rw [show ((b.toNat / rs.pageSize : Nat) : Int) + 1
                = ((b.toNat / rs.pageSize + 1 : Nat) : Int) by push_cast; ring]
            exact intRange_natCast _ _
          rw [hrange, List.map_map, List.map_map]
          apply List.map_congr_left
          intro j _
          simp only [Function.comp_apply, Int.toNat_natCast]
        subst hmids
        simp only
        have hwf4 : Wf rs4 := by
          have h := getPages_stable rs3
            (intRange (b / (rs.pageSize : Int) + 1) (e / (rs.pageSize : Int)))
          rw [hgps] at h
          exact h.wf hwf3
        have hst4 : Stable rs rs4 := by
          have h := getPages_stable rs3
            (intRange (b / (rs.pageSize : Int) + 1) (e / (rs.pageSize : Int)))
          rw [hgps] at h
          exact hst3.trans h
        have hEeq : e.toNat / rs.pageSize * rs.pageSize + e.toNat % rs.pageSize
            = e.toNat := by
          have h := Nat.div_add_mod e.toNat rs.pageSize
          rw [Nat.mul_comm] at h
          omega
        have hmulle : (b.toNat / rs.pageSize + 1) * rs.pageSize
            ≤ e.toNat / rs.pageSize * rs.pageSize :=
          Nat.mul_le_mul_right rs.pageSize (by omega)
        have haddmul : (b.toNat / rs.pageSize + 1) * rs.pageSize
            = b.toNat / rs.pageSize * rs.pageSize + rs.pageSize := by
          rw [Nat.add_mul, Nat.one_mul]
        have hmid := mid_pages_concat rs.server.items rs.pageSize
          (e.toNat % rs.pageSize) hps
          (le_of_lt (Nat.mod_lt e.toNat hps))
          (e.toNat / rs.pageSize - (b.toNat / rs.pageSize + 1))
          (b.toNat / rs.pageSize + 1) (e.toNat / rs.pageSize) (by omega)
        rw [hEeq] at hmid
        have hfront := front_page_concat rs.server.items rs.pageSize
          b.toNat e.toNat hps (by omega)
        by_cases heo : 0 < (e % (rs.pageSize : Int)).toNat
        · rw [if_pos heo]
          cases hgp2 : getPage rs4 (e / (rs.pageSize : Int)) with
          | mk r3 rs5 =>
            have hr3 : r3 = .ok (serverPage rs.server.items rs.pageSize
                (e / (rs.pageSize : Int)).toNat) := by
              have h := @getPage_ok rs4 (e / (rs.pageSize : Int)) hwf4 hEk
              rw [hgp2] at h
              rw [hst4.serverEq, hst4.pageSizeEq] at h
              exact h
            subst hr3
            simp only
            congr 1
            rw [hBdiv, hBmod, hEdiv, hEmod]
            rw [List.append_assoc, hmid]
            rw [haddmul] at *
            exact hfront
        · rw [if_neg heo]
          congr 1
          rw [hBdiv, hBmod]
          have heo0 : e.toNat % rs.pageSize = 0 := by
            rw [← hEmod]
            omega
          rw [heo0, List.take_zero, List.append_nil] at hmid
          rw [hmid]
          rw [haddmul] at hmid ⊢
          exact congrArg Except.ok hfront

/-- `getSlice` with non-negative ordered bounds returns `items[start:stop]`
in Python's clamped sense. -/
theorem getSlice_ok {rs : ResultSet} {start stop : Int} (hwf : Wf rs)
    (hs : 0 ≤ start) (hss : start ≤ stop) :
    (getSlice rs start stop).1
      = .ok ((rs.server.items.take stop.toNat).drop start.toNat) := by
  rw [getSlice]
  split
  next e rs1 heq =>
    rw [canonKey_nonneg hs] at heq
    simp at heq
  next b rs1 heq =>
    rw [canonKey_nonneg hs] at heq
    simp only [Prod.mk.injEq, Except.ok.injEq] at heq
    obtain ⟨rfl, rfl⟩ := heq
    split
    next e rs2 heq2 =>
      rw [canonKey_nonneg (le_trans hs hss)] at heq2
      simp at heq2
    next e0 rs2 heq2 =>
      rw [canonKey_nonneg (le_trans hs hss)] at heq2
      simp only [Prod.mk.injEq, Except.ok.injEq] at heq2
      obtain ⟨rfl, rfl⟩ := heq2
      exact sliceCore_ok hwf hs hss

/-- `iterInit` on a well-formed state yields exactly the server's items in
order. -/
theorem iterInit_ok {rs : ResultSet} (hwf : Wf rs) :
    (iterInit rs).1 = .ok rs.server.items := by
  have hps := hwf.psPos
  rw [iterInit]
  cases hlen : lenRS rs with
  | mk r rs1 =>
    have hr : r = .ok rs.server.items.length := by
      rw [← lenRS_ok hwf, hlen]
    subst hr
    simp only
    have hst : Stable rs rs1 := by
      have h := lenRS_stable rs
      rw [hlen] at h
      exact h
    have hwf1 : Wf rs1 := hst.wf hwf
    rw [hst.pageSizeEq]
    have hkeys : ∀ k ∈ (List.range ((rs.server.items.length + rs.pageSize - 1)
        / rs.pageSize)).map (fun j : Nat => (j : Int)), 0 ≤ k := by
      intro k hk
      rw [List.mem_map] at hk
      obtain ⟨j, _, rfl⟩ := hk
      exact Int.natCast_nonneg j
    have h := getPages_ok rs1 _ hwf1 hkeys
    rw [hst.serverEq, hst.pageSizeEq] at h
    refine h.trans ?_
    congr 1
    rw [List.map_map]
    rw [show ((fun k : Int => serverPage rs.server.items rs.pageSize k.toNat)
          ∘ fun j : Nat => (j : Int))
        = fun j : Nat => serverPage rs.server.items rs.pageSize j by
      funext j
      simp only [Function.comp_apply, Int.toNat_natCast]]
    exact flatten_pages rs.pageSize hps _ rs.server.items
      (ceil_mul_ge rs.server.items.length rs.pageSize hps)

theorem take_drop_singleton (l : List Int) (N : Nat) (h : N < l.length) :
    (l.take (N + 1)).drop N = [l.getD N 0] := by
  rw [List.drop_take, show N + 1 - N = 1 by omega]
  rw [List.drop_eq_getElem_cons h]
  rw [List.getD_eq_getElem?_getD, List.getElem?_eq_getElem h]
  rfl

/-- `getIndex` at a non-negative in-range key on any well-formed state
returns the item the server holds at that absolute position. -/
theorem getIndex_ok {rs : ResultSet} {i : Int} (hwf : Wf rs)
    (hi0 : 0 ≤ i) (hilen : i < (rs.server.items.length : Int)) :
    (getIndex rs i).1 = .ok (rs.server.items.getD i.toNat 0) := by
  have hps := hwf.psPos
  have hNlt : i.toNat < rs.server.items.length := by omega
  rw [getIndex]
  cases hlen : lenRS rs with
  | mk r rs1 =>
    have hr : r = .ok rs.server.items.length := by
      rw [← lenRS_ok hwf, hlen]
    subst hr
    simp only
    rw [if_neg (not_le.mpr hilen)]
    have hst : Stable rs rs1 := by
      have h := lenRS_stable rs
      rw [hlen] at h
      exact h
    have hwf1 : Wf rs1 := hst.wf hwf
    split
    next e rs2 heq =>
      rw [canonKey_nonneg hi0] at heq
      simp at heq
    next ck rs2 heq =>
      rw [canonKey_nonneg hi0] at heq
      simp only [Prod.mk.injEq, Except.ok.injEq] at heq
      obtain ⟨rfl, rfl⟩ := heq
      have hk : 0 ≤ i / (rs1.pageSize : Int) :=
        Int.ediv_nonneg hi0 (Int.natCast_nonneg _)
      cases hgp : getPage rs1 (i / (rs1.pageSize : Int)) with
      | mk r2 rs3 =>
        have hr2 : r2 = .ok (serverPage rs.server.items rs.pageSize
            (i / (rs.pageSize : Int)).toNat) := by
          have h := @getPage_ok rs1 (i / (rs1.pageSize : Int)) hwf1 hk
          rw [hgp] at h
          rw [hst.serverEq, hst.pageSizeEq] at h
          exact h
        subst hr2
        simp only
        have hsub : (serverPage rs.server.items rs.pageSize
            (i / (rs.pageSize : Int)).toNat)[(i % (rs1.pageSize : Int)).toNat]?
            = some (rs.server.items.getD i.toNat 0) := by
          rw [hst.pageSizeEq]
          rw [toNat_div_nat i rs.pageSize hi0, toNat_mod_nat i rs.pageSize hi0,
            serverPage]
          rw [List.getElem?_take, if_pos (Nat.mod_lt i.toNat hps)]
          rw [List.getElem?_drop]
          rw [show i.toNat / rs.pageSize * rs.pageSize + i.toNat % rs.pageSize
              = i.toNat by
            have h := Nat.div_add_mod i.toNat rs.pageSize
            rw [Nat.mul_comm] at h
            omega]
          rw [List.getElem?_eq_getElem hNlt]
          rw [List.getD_eq_getElem?_getD, List.getElem?_eq_getElem hNlt]
          rfl
        rw [hsub]

/-! ### The slice path produces no out-of-range failure -/

theorem getPage_no_oob (rs : ResultSet) (k : Int) :
    (getPage rs k).1 ≠ .error .outOfRange := by
  rw [getPage]
  split
  · simp
  · split <;> simp

theorem lenRS_no_oob (rs : ResultSet) :
    (lenRS rs).1 ≠ .error .outOfRange := by
  rw [lenRS]
  split
  · simp
  · split
    next e rs1 heq =>
      have h := getPage_no_oob rs 0
      rw [heq] at h
      simpa using h
    next v rs1 heq => simp

theorem canonKey_no_oob (rs : ResultSet) (key : Int) :
    (canonKey rs key).1 ≠ .error .outOfRange := by
  rw [canonKey]
  split
  · split
    next e rs1 heq =>
      have h := lenRS_no_oob rs
      rw [heq] at h
      simpa using h
    next n rs1 heq => simp
  · simp

theorem getPages_no_oob : ∀ (rs : ResultSet) (ks : List Int),
    (getPages rs ks).1 ≠ .error .outOfRange := by
  intro rs ks
  induction ks generalizing rs with
  | nil => simp [getPages]
  | cons k ks ih =>
    rw [getPages]
    split
    next e rs1 heq =>
      have h := getPage_no_oob rs k
      rw [heq] at h
      simpa using h
    next d rs1 heq =>
      split
      next e rs2 heq2 =>
        have h := ih rs1
        rw [heq2] at h
        simpa using h
      next ds rs2 heq2 => simp

theorem sliceCore_no_oob (rs : ResultSet) (b e : Int) :
    (sliceCore rs b e).1 ≠ .error .outOfRange := by
  rw [sliceCore]
  split
  · simp
  · split
    · split
      next er rs3 heq =>
        have h := getPage_no_oob rs (b / rs.pageSize)
        rw [heq] at h
        simpa using h
      next d rs3 heq => simp
    · split
      next er rs3 heq =>
        have h := getPage_no_oob rs (b / rs.pageSize)
        rw [heq] at h
        simpa using h
      next d rs3 heq =>
        split
        next er rs4 heq2 =>
          have h := getPages_no_oob rs3
            (intRange (b / rs.pageSize + 1) (e / rs.pageSize))
          rw [heq2] at h
          simpa using h
        next mids rs4 heq2 =>
          split
          · split
            next er rs5 heq3 =>
              have h := getPage_no_oob rs4 (e / rs.pageSize)
              rw [heq3] at h
              simpa using h
            next dl rs5 heq3 => simp
          · simp

/-- The slice branch of `__getitem__` never produces the explicit
out-of-range failure, for any bounds whatsoever. -/
theorem getSlice_no_oob (rs : ResultSet) (start0 stop0 : Int) :
    (getSlice rs start0 stop0).1 ≠ .error .outOfRange := by
  rw [getSlice]
  split
  next e rs1 heq =>
    have h := canonKey_no_oob rs start0
    rw [heq] at h
    simpa using h
  next b rs1 heq =>
    split
    next e rs2 heq2 =>
      have h := canonKey_no_oob rs1 stop0
      rw [heq2] at h
      simpa using h
    next e0 rs2 heq2 => exact sliceCore_no_oob rs2 b e0


/-! ### Remaining helpers -/

theorem wf_init (params : Params) (endpoint method : String) (ps : Nat)
    (srv : Server) (hps : 0 < ps) :
    Wf (initRS params endpoint method ps srv) :=
  ⟨hps,
   fun c hc => by simp only [initRS] at hc; exact absurd hc (by simp),
   fun k d hm => by simp only [initRS] at hm; exact absurd hm (by simp),
   fun _ => rfl⟩

theorem alookup_append_none {α β : Type} [DecidableEq α] {k : α} {v : β} :
    ∀ {l : List (α × β)}, alookup k l = none →
      alookup k (l ++ [(k, v)]) = some v := by
  intro l
  induction l with
  | nil => intro _; simp [alookup]
  | cons p rest ih =>
    intro h
    rw [alookup] at h
    rw [List.cons_append, alookup]
    split at h
    · exact absurd h (by simp)
    · next hne => rw [if_neg hne]; exact ih h

/-- An uncached `_get_page` at a non-negative index appends exactly one
request, and repeating the call returns the now-cached page without a new
request. -/
theorem getPage_idem {rs : ResultSet} {k : Int} (hwf : Wf rs) (hk : 0 ≤ k)
    (hcache : alookup k rs.pages = none) :
    getPage (getPage rs k).2 k = ((getPage rs k).1, (getPage rs k).2) ∧
    ((getPage rs k).2).trace.length = rs.trace.length + 1 := by
  rw [getPage_fetch_ok hwf hk hcache]
  constructor
  · exact getPage_cached (alookup_append_none hcache)
  · simp

/-! ### Concrete states used by the claim witnesses -/

/-- page_size 2 over server items `[1, 2, 3, 4]`, fresh. -/
def sampleRS : ResultSet := initRS [] "user/" "GET" 2 ⟨[1, 2, 3, 4]⟩

theorem wf_sampleRS : Wf sampleRS :=
  wf_init [] "user/" "GET" 2 ⟨[1, 2, 3, 4]⟩ (by decide)

/-- page_size 2 over server items `[10, 20, 30]` (length 3), fresh. -/
def shortRS : ResultSet := initRS [] "user/" "GET" 2 ⟨[10, 20, 30]⟩

/-- Constructor params carrying a caller-supplied `limit` of 3 (as
`Pluvo.get_courses(limit=3)` builds them), page_size 2, server total 4. -/
def limitRS : ResultSet :=
  initRS [("limit", .intV 3)] "courses/" "POST" 2 ⟨[10, 20, 30, 40]⟩

/-- Constructor params that already carry `offset` and `limit` keys. -/
def overrideParams : Params := [("offset", .intV 999), ("limit", .intV 77)]

def overrideRS : ResultSet := initRS overrideParams "user/" "GET" 2 ⟨[1, 2, 3, 4]⟩

/-! ### Claim theorems -/

/-- C3: `_get_page` is idempotent with respect to the transport: a cached
page is returned unchanged with no transport call, and calling it twice on
an uncached page issues exactly one transport call in total (the second
call returns the identical result and state). -/
theorem c3_fetch_page_idempotent (rs : ResultSet) (k : Int) :
    (∀ d, alookup k rs.pages = some d → getPage rs k = (.ok d, rs)) ∧
    (Wf rs → 0 ≤ k → alookup k rs.pages = none →
      getPage (getPage rs k).2 k = ((getPage rs k).1, (getPage rs k).2) ∧
      ((getPage rs k).2).trace.length = rs.trace.length + 1) :=
  ⟨fun _ hd => getPage_cached hd,
   fun hwf hk hcache => getPage_idem hwf hk hcache⟩

theorem c3_witness :
    getPage (getPage sampleRS 0).2 0 = ((getPage sampleRS 0).1, (getPage sampleRS 0).2) ∧
    ((getPage sampleRS 0).2).trace.length = sampleRS.trace.length + 1 :=
  (c3_fetch_page_idempotent sampleRS 0).2 wf_sampleRS (by decide) (by decide)

/-- C4: `__len__` returns `_count`; when the count is unknown it fetches
page 0 (offset 0, limit page_size) once to learn it, and a repeated call
returns the cached value with no state change, so at most one transport
call is ever made for length discovery. -/
theorem c4_length_single_fetch (rs : ResultSet) (hwf : Wf rs) :
    (∀ c, rs.count = some c → lenRS rs = (.ok c, rs)) ∧
    (rs.count = none →
      (lenRS rs).1 = .ok rs.server.items.length ∧
      (lenRS rs).2.trace = rs.trace ++ [mkReq rs 0] ∧
      alookup "offset" (mkReq rs 0).params = some (.intV 0) ∧
      alookup "limit" (mkReq rs 0).params = some (.intV rs.pageSize)) ∧
    lenRS ((lenRS rs).2) = ((lenRS rs).1, (lenRS rs).2) := by
  refine ⟨fun c hc => lenRS_cached hc, ?_, ?_⟩
  · intro hrc
    have hcache : alookup (0 : Int) rs.pages = none := by
      rw [hwf.countNone hrc]
      rfl
    refine ⟨lenRS_ok hwf, ?_, ?_, ?_⟩
    · rw [lenRS, hrc, getPage_fetch_ok hwf le_rfl hcache]
    · have h := (goodReq_mkReq rs 0).1
      rw [show ((mkReq rs 0).pageIdx * (rs.pageSize : Int)) = 0 by
        simp [mkReq]] at h
      exact h
    · exact (goodReq_mkReq rs 0).2
  · rw [lenRS_cached (lenRS_count hwf), lenRS_ok hwf]

theorem c4_witness :
    (lenRS sampleRS).1 = .ok 4 ∧
    lenRS ((lenRS sampleRS).2) = ((lenRS sampleRS).1, (lenRS sampleRS).2) := by
  have h := c4_length_single_fetch sampleRS wf_sampleRS
  exact ⟨((h.2.1 (by decide)).1.trans (by decide)), h.2.2⟩

/-- C7: once `_count` is set, no sequence of operations (length queries,
index accesses, slices, iterations, page fetches) ever changes it. -/
theorem c7_count_immutable (rs : ResultSet) (ops : List Op) (c : Nat)
    (h : rs.count = some c) : (runOps rs ops).count = some c :=
  (runOps_stable rs ops).countMono c h

theorem c7_witness :
    (runOps (lenRS sampleRS).2
      [.indexO 1, .sliceO 0 3, .iterO, .lenO, .pageO 5]).count = some 4 :=
  c7_count_immutable (lenRS sampleRS).2 [.indexO 1, .sliceO 0 3, .iterO, .lenO, .pageO 5]
    4 (by decide)

/-- C9: every transport request any operation sequence ever issues carries
`offset = page_index * page_size` and `limit = page_size` in its merged
parameters, even when the constructor-supplied params already contain
`offset` or `limit` keys (the computed values shadow them). -/
theorem c9_request_params_override (params : Params) (endpoint method : String)
    (ps : Nat) (srv : Server) (ops : List Op) :
    ∀ req ∈ (runOps (initRS params endpoint method ps srv) ops).trace,
      alookup "offset" req.params = some (.intV (req.pageIdx * ps)) ∧
      alookup "limit" req.params = some (.intV ps) := by
  intro req hreq
  obtain ⟨t, ht, hg⟩ := (runOps_stable (initRS params endpoint method ps srv) ops).traceExt
  rw [ht, show (initRS params endpoint method ps srv).trace = [] from rfl,
    List.nil_append] at hreq
  exact hg req hreq

theorem c9_witness :
    alookup "offset" (mkReq overrideRS 1).params
        = some (.intV ((mkReq overrideRS 1).pageIdx * 2)) ∧
    alookup "limit" (mkReq overrideRS 1).params = some (.intV 2) :=
  c9_request_params_override overrideParams "user/" "GET" 2 ⟨[1, 2, 3, 4]⟩
    [.pageO 1] (mkReq overrideRS 1) (by decide)

/-- C10: the slice path of `__getitem__` performs no range validation: it
never produces the out-of-range failure for any bounds, and a `stop`
beyond the end simply yields the items that exist from `start` on. -/
theorem c10_slice_no_range_check (rs : ResultSet) (start stop : Int) :
    ((getSlice rs start stop).1 ≠ .error .outOfRange) ∧
    (Wf rs → 0 ≤ start → start.toNat ≤ rs.server.items.length →
      (rs.server.items.length : Int) ≤ stop →
      (getSlice rs start stop).1 = .ok (rs.server.items.drop start.toNat)) := by
  constructor
  · exact getSlice_no_oob rs start stop
  · intro hwf hs hsl hstop
    have hss : start ≤ stop := by omega
    rw [getSlice_ok hwf hs hss]
    congr 1
    rw [List.take_of_length_le (by omega)]

theorem c10_witness :
    ((getSlice sampleRS 1 100).1 ≠ .error .outOfRange) ∧
    (getSlice sampleRS 1 100).1 = .ok [2, 3, 4] := by
  have h := c10_slice_no_range_check sampleRS 1 100
  exact ⟨h.1, (h.2 wf_sampleRS (by decide) (by decide) (by decide)).trans (by decide)⟩


/-- C1 counterexample: a collection built with a caller-supplied
`limit=3` query parameter (page_size 2, server total 4) still iterates all
4 server items, not 3, and every issued request carries `limit = 2` (the
page size): `_get_page` overwrites the caller's `limit`. -/
theorem c1_counterexample :
    (iterInit limitRS).1 = .ok [10, 20, 30, 40] ∧
    (iterInit limitRS).1 ≠ .ok [10, 20, 30] ∧
    ((iterInit limitRS).2.trace.map fun r => alookup "limit" r.params)
      = [some (.intV 2), some (.intV 2)] :=
  ⟨by decide, by decide, by decide⟩

/-- C1 (amended): the collection supports no caller-supplied window: any
`limit`/`offset` entries in the constructor params are shadowed by the
computed pagination values on every request, iteration always yields all
server items, and the effective length is the server-reported total. -/
theorem c1_no_client_window (params : Params) (endpoint method : String)
    (ps : Nat) (srv : Server) (hps : 0 < ps) :
    (iterInit (initRS params endpoint method ps srv)).1 = .ok srv.items ∧
    (lenRS (initRS params endpoint method ps srv)).1 = .ok srv.items.length ∧
    ∀ req ∈ (iterInit (initRS params endpoint method ps srv)).2.trace,
      alookup "limit" req.params = some (.intV ps) := by
  refine ⟨iterInit_ok (wf_init params endpoint method ps srv hps),
    lenRS_ok (wf_init params endpoint method ps srv hps), ?_⟩
  intro req hreq
  obtain ⟨t, ht, hg⟩ :=
    (iterInit_stable (initRS params endpoint method ps srv)).traceExt
  rw [ht, show (initRS params endpoint method ps srv).trace = [] from rfl,
    List.nil_append] at hreq
  exact (hg req hreq).2

theorem c1_witness :
    (iterInit limitRS).1 = .ok [10, 20, 30, 40] ∧
    (lenRS limitRS).1 = .ok 4 := by
  have h := c1_no_client_window [("limit", .intV 3)] "courses/" "POST" 2
    ⟨[10, 20, 30, 40]⟩ (by decide)
  exact ⟨h.1, h.2.1⟩

/-- C2: with length 3, `get_index(3)` raises the explicit out-of-range
error, but `get_index(-4)` does not: the bounds check at pluvo.py:99 runs
on the raw key before negative resolution, so -4 slips through, resolves
to canonical -1, and `_get_page(-1)` issues a transport request with
offset -2 — the operation surfaces that fetch's failure, never the
out-of-range error the spec requires for `canonical < 0`. -/
theorem c2_negative_index_bug :
    (getIndex shortRS 3).1 = .error .outOfRange ∧
    (getIndex shortRS (-4)).1 = .error .transport ∧
    (getIndex shortRS (-4)).1 ≠ .error .outOfRange ∧
    ((getIndex shortRS (-4)).2.trace.map fun r => alookup "offset" r.params)
      = [some (.intV 0), some (.intV (-2))] :=
  ⟨by decide, by decide, by decide, by decide⟩

/-- C5: a slice spanning distinct pages is the start page's tail from
`start_off`, then every full page strictly between the two page keys, then
(only when `stop_off > 0`) the first `stop_off` items of the stop page;
concretely `get_slice(1, 3)` over pages `[1,2]`,`[3,4]` is `[2,3]` with
pages 0 and 1 each fetched exactly once. -/
theorem c5_slice_page_span :
    (∀ (rs : ResultSet) (start stop : Int), Wf rs → 0 ≤ start → start ≤ stop →
      start.toNat / rs.pageSize ≠ stop.toNat / rs.pageSize →
      (getSlice rs start stop).1 = .ok (
        (serverPage rs.server.items rs.pageSize
            (start.toNat / rs.pageSize)).drop (start.toNat % rs.pageSize)
          ++ ((List.range (stop.toNat / rs.pageSize
                - (start.toNat / rs.pageSize + 1))).map
              fun j => serverPage rs.server.items rs.pageSize
                (start.toNat / rs.pageSize + 1 + j)).flatten
          ++ (if 0 < stop.toNat % rs.pageSize then
                (serverPage rs.server.items rs.pageSize
                  (stop.toNat / rs.pageSize)).take (stop.toNat % rs.pageSize)
              else []))) ∧
    ((getSlice sampleRS 1 3).1 = .ok [2, 3] ∧
      (getSlice sampleRS 1 3).2.trace.map Request.pageIdx = [0, 1]) := by
  constructor
  · intro rs start stop hwf hs hss hsame
    rw [getSlice_ok hwf hs hss]
    congr 1
    have hps := hwf.psPos
    have hBE : start.toNat ≤ stop.toNat := by omega
    have hdivle : start.toNat / rs.pageSize ≤ stop.toNat / rs.pageSize :=
      Nat.div_le_div_right hBE
    have hdivlt : start.toNat / rs.pageSize < stop.toNat / rs.pageSize := by
      omega
    have hEeq : stop.toNat / rs.pageSize * rs.pageSize
        + stop.toNat % rs.pageSize = stop.toNat := by
      have h := Nat.div_add_mod stop.toNat rs.pageSize
      rw [Nat.mul_comm] at h
      omega
    have haddmul : (start.toNat / rs.pageSize + 1) * rs.pageSize
        = start.toNat / rs.pageSize * rs.pageSize + rs.pageSize := by
      rw [Nat.add_mul, Nat.one_mul]
    have hmulle : (start.toNat / rs.pageSize + 1) * rs.pageSize
        ≤ stop.toNat / rs.pageSize * rs.pageSize :=
      Nat.mul_le_mul_right rs.pageSize (by omega)
    have hmid := mid_pages_concat rs.server.items rs.pageSize
      (stop.toNat % rs.pageSize) hps (le_of_lt (Nat.mod_lt stop.toNat hps))
      (stop.toNat / rs.pageSize - (start.toNat / rs.pageSize + 1))
      (start.toNat / rs.pageSize + 1) (stop.toNat / rs.pageSize) (by omega)
    rw [hEeq] at hmid
    have hfront := front_page_concat rs.server.items rs.pageSize
      start.toNat stop.toNat hps (by omega)
    rw [show (if 0 < stop.toNat % rs.pageSize then
          (serverPage rs.server.items rs.pageSize
            (stop.toNat / rs.pageSize)).take (stop.toNat % rs.pageSize)
        else [])
        = (serverPage rs.server.items rs.pageSize
            (stop.toNat / rs.pageSize)).take (stop.toNat % rs.pageSize) by
      split
      · rfl
      · next hz => rw [show stop.toNat % rs.pageSize = 0 by omega,
          List.take_zero]]
    rw [List.append_assoc]
    rw [show ((List.range (stop.toNat / rs.pageSize
          - (start.toNat / rs.pageSize + 1))).map
          fun j => serverPage rs.server.items rs.pageSize
            (start.toNat / rs.pageSize + 1 + j))
        = (((List.range (stop.toNat / rs.pageSize
            - (start.toNat / rs.pageSize + 1))).map
            fun j => start.toNat / rs.pageSize + 1 + j).map
            fun i => serverPage rs.server.items rs.pageSize i) by
      rw [List.map_map]
      rfl]
    rw [hmid, haddmul]
    exact hfront.symm
  · exact ⟨by decide, by decide⟩

theorem c5_witness :
    Wf sampleRS ∧ (getSlice sampleRS 1 3).1 = .ok [2, 3] := by
  refine ⟨wf_sampleRS, ?_⟩
  have h := c5_slice_page_span.1 sampleRS 1 3 wf_sampleRS (by decide)
    (by decide) (by decide)
  exact h.trans (by decide)

/-- C6 counterexample: after merely constructing the iterator over a
fresh two-page collection — the `__iter__` call itself, before a single
item has been consumed — the trace already contains BOTH transport calls
(offsets 0 and 2): `itertools.chain(*page_iters)` unpacks the page
generator eagerly, so page 1 is not fetched lazily just before its first
item is yielded. -/
theorem c6_counterexample :
    ((iterInit sampleRS).2.trace.map fun r => alookup "offset" r.params)
      = [some (.intV 0), some (.intV 2)] := by decide

/-- C6 (amended): `__iter__` walks pages 0 .. ceil(len/page_size) - 1 in
ascending order but fetches them all eagerly when the iterator is
created; iteration yields every item in ascending index order, the
two-page scenario issues exactly 2 fetches with offsets 0 and 2, and
`get_slice(0, length())` equals the iteration output. -/
theorem c6_iterate_eager :
    (∀ rs : ResultSet, Wf rs →
      (iterInit rs).1 = .ok rs.server.items ∧
      (getSlice rs 0 (rs.server.items.length : Int)).1 = (iterInit rs).1) ∧
    ((iterInit sampleRS).1 = .ok [1, 2, 3, 4] ∧
     ((iterInit sampleRS).2.trace.map fun r =>
        (r.pageIdx, alookup "offset" r.params))
       = [(0, some (.intV 0)), (1, some (.intV 2))]) := by
  constructor
  · intro rs hwf
    refine ⟨iterInit_ok hwf, ?_⟩
    rw [iterInit_ok hwf, getSlice_ok hwf le_rfl (Int.natCast_nonneg _)]
    congr 1
    simp
  · exact ⟨by decide, by decide⟩

theorem c6_witness :
    (iterInit sampleRS).1 = .ok [1, 2, 3, 4] ∧
    (getSlice sampleRS 0 4).1 = (iterInit sampleRS).1 := by
  have h := c6_iterate_eager.1 sampleRS wf_sampleRS
  exact ⟨h.1.trans (by decide), h.2⟩

/-- C8: for every in-range absolute index, `get_index` returns exactly the
item the server holds at that position — on any well-formed state, cached
or not, so the result does not depend on the cache — and it agrees with
the single-item slice `get_slice(i, i+1)`. -/
theorem c8_index_slice_agree (rs : ResultSet) (i : Int) (hwf : Wf rs)
    (h0 : 0 ≤ i) (hlen : i < (rs.server.items.length : Int)) :
    (getIndex rs i).1 = .ok (rs.server.items.getD i.toNat 0) ∧
    (getSlice rs i (i + 1)).1 = .ok [rs.server.items.getD i.toNat 0] := by
  refine ⟨getIndex_ok hwf h0 hlen, ?_⟩
  rw [getSlice_ok hwf h0 (by omega)]
  congr 1
  rw [show (i + 1).toNat = i.toNat + 1 by omega]
  exact take_drop_singleton _ _ (by omega)

theorem c8_witness :
    (getIndex sampleRS 2).1 = .ok 3 ∧ (getSlice sampleRS 2 3).1 = .ok [3] := by
  have h := c8_index_slice_agree sampleRS 2 wf_sampleRS (by decide) (by decide)
  exact ⟨h.1.trans (by decide), h.2.trans (by decide)⟩

end PluvoModel

